import Mathlib

/-!
# Verification of the rsync core (brisk286/rsync, `rsync.go`)

A shallow embedding of `rsync.go` into Lean 4.  Byte buffers (`[]byte`) are
modelled as `List Nat` (each entry the byte's value, `< 256` in actual use);
`uint32` arithmetic is modelled as `Nat` arithmetic with explicit reduction
modulo `2^32`; Go slice expressions `s[i:j]` are modelled by `slice`, and an
out-of-range slice (a Go panic, which aborts the program) is modelled by the
fallible functions returning `none`.  Slice capacity is taken equal to slice
length, i.e. only the observable bytes `[0, len)` of a `[]byte` value exist.
The operation channel is modelled as the list of operations sent, in order.
-/

namespace Rsync

/-- `BlockSize = 2`, from `rsync.go` line 17. -/
def BlockSize : Nat := 2

/-- `M = 1 << 16 = 65536`, the weak-hash modulus, `rsync.go` line 19. -/
def M : Nat := 65536

/-- `2^32`: the modulus of Go `uint32` arithmetic. -/
def U32 : Nat := 4294967296

/-- Reduction of a `Nat` to a Go `uint32` value. -/
def u32 (x : Nat) : Nat := x % U32

/-- Go `uint32` subtraction `x - y` (wraps modulo `2^32`). -/
def u32sub (x y : Nat) : Nat := (u32 x + (U32 - u32 y)) % U32

/-- The Go slice expression `c[i:j]` (elements `i` to `j-1`).  Bounds are the
caller's duty; `sliceOk` states them. -/
def slice (c : List Nat) (i j : Nat) : List Nat := (c.drop i).take (j - i)

/-- In-boundedness of the Go slice expression `c[i:j]` (with `cap = len`):
Go panics unless `i ≤ j ≤ len c`. -/
def sliceOk (c : List Nat) (i j : Nat) : Prop := i ≤ j ∧ j ≤ c.length

instance (c : List Nat) (i j : Nat) : Decidable (sliceOk c i j) := by
  unfold sliceOk; infer_instance

/-! ## The weak (rolling) hash, `rsync.go` lines 208–215

```go
func weakHash(v []byte) (uint32, uint32, uint32) {
    var a, b uint32
    for i := range v {
        a += uint32(v[i])
        b += (uint32(len(v)-1) - uint32(i) + 1) * uint32(v[i])
    }
    return (a % M) + (1 << 16 * (b % M)), a % M, b % M
}
```

The loop is translated to a structural recursion over the list: when the
element `x` at index `i` of `v` is processed, the remaining list is
`x :: t` and its length is `len v - i`, so the weight
`uint32(len(v)-1) - uint32(i) + 1 = len v - i` is `t.length + 1`.
In Go `1 << 16 * (b % M)` parses as `(1 << 16) * (b % M)` (both operators
share one precedence level, left associative), and since `a % M` and
`b % M` are `< 2^16` the final sum does not wrap. -/

/-- Accumulation loop of `weakHash`: `a` and `b` are `uint32` accumulators. -/
def weakLoop : List Nat → Nat → Nat → Nat × Nat
  | [], a, b => (a, b)
  | x :: t, a, b =>
      weakLoop t ((a + u32 x) % U32) ((b + u32 ((t.length + 1) * x)) % U32)

/-- `weakHash`, `rsync.go` lines 208–215.  Returns `(weak, a % M, b % M)`. -/
def weakHash (v : List Nat) : Nat × Nat × Nat :=
  let ab := weakLoop v 0 0
  ((ab.1 % M) + 65536 * (ab.2 % M), ab.1 % M, ab.2 % M)

/-! ## The strong hash: MD5 (`crypto/md5`, Go standard library)

`strongHash` (`rsync.go` lines 200–204) is the MD5 digest of the block.
`crypto/md5` is external library code; it is embedded here as the standard
MD5 algorithm (RFC 1321): padding to a multiple of 64 bytes, then 64 rounds
of `uint32` arithmetic per 16-word chunk, digest serialized little-endian. -/

/-- The 64 MD5 round constants `K[i] = floor(2^32 * abs(sin(i+1)))`. -/
def md5K : List Nat :=
  [0xd76aa478, 0xe8c7b756, 0x242070db, 0xc1bdceee,
   0xf57c0faf, 0x4787c62a, 0xa8304613, 0xfd469501,
   0x698098d8, 0x8b44f7af, 0xffff5bb1, 0x895cd7be,
   0x6b901122, 0xfd987193, 0xa679438e, 0x49b40821,
   0xf61e2562, 0xc040b340, 0x265e5a51, 0xe9b6c7aa,
   0xd62f105d, 0x02441453, 0xd8a1e681, 0xe7d3fbc8,
   0x21e1cde6, 0xc33707d6, 0xf4d50d87, 0x455a14ed,
   0xa9e3e905, 0xfcefa3f8, 0x676f02d9, 0x8d2a4c8a,
   0xfffa3942, 0x8771f681, 0x6d9d6122, 0xfde5380c,
   0xa4beea44, 0x4bdecfa9, 0xf6bb4b60, 0xbebfbc70,
   0x289b7ec6, 0xeaa127fa, 0xd4ef3085, 0x04881d05,
   0xd9d4d039, 0xe6db99e5, 0x1fa27cf8, 0xc4ac5665,
   0xf4292244, 0x432aff97, 0xab9423a7, 0xfc93a039,
   0x655b59c3, 0x8f0ccc92, 0xffeff47d, 0x85845dd1,
   0x6fa87e4f, 0xfe2ce6e0, 0xa3014314, 0x4e0811a1,
   0xf7537e82, 0xbd3af235, 0x2ad7d2bb, 0xeb86d391]

/-- The 64 MD5 per-round left-rotation amounts. -/
def md5S : List Nat :=
  [7, 12, 17, 22, 7, 12, 17, 22, 7, 12, 17, 22, 7, 12, 17, 22,
   5, 9, 14, 20, 5, 9, 14, 20, 5, 9, 14, 20, 5, 9, 14, 20,
   4, 11, 16, 23, 4, 11, 16, 23, 4, 11, 16, 23, 4, 11, 16, 23,
   6, 10, 15, 21, 6, 10, 15, 21, 6, 10, 15, 21, 6, 10, 15, 21]

/-- 32-bit left rotation. -/
def rotl32 (x s : Nat) : Nat := ((x <<< s) % U32) ||| (x >>> (32 - s))

/-- MD5 round function and message-word index for round `i`. -/
def md5FG (i b c d : Nat) : Nat × Nat :=
  if i < 16 then ((b &&& c) ||| ((b ^^^ 0xffffffff) &&& d), i)
  else if i < 32 then ((d &&& b) ||| ((d ^^^ 0xffffffff) &&& c), (5 * i + 1) % 16)
  else if i < 48 then (b ^^^ c ^^^ d, (3 * i + 5) % 16)
  else (c ^^^ (b ||| (d ^^^ 0xffffffff)), (7 * i) % 16)

/-- One MD5 chunk transformation, on 16 little-endian message words `w`. -/
def md5Chunk (w : List Nat) (st : Nat × Nat × Nat × Nat) : Nat × Nat × Nat × Nat :=
  let r := (List.range 64).foldl
    (fun (q : Nat × Nat × Nat × Nat) i =>
      let (a, b, c, d) := q
      let fg := md5FG i b c d
      let f := (fg.1 + a + md5K.getD i 0 + w.getD fg.2 0) % U32
      (d, (b + rotl32 f (md5S.getD i 0)) % U32, b, c)) st
  ((st.1 + r.1) % U32, (st.2.1 + r.2.1) % U32,
   (st.2.2.1 + r.2.2.1) % U32, (st.2.2.2 + r.2.2.2) % U32)

/-- The four little-endian bytes of a 32-bit word. -/
def wordLE (w : Nat) : List Nat :=
  [w % 256, w / 256 % 256, w / 65536 % 256, w / 16777216 % 256]

/-- The eight little-endian bytes of a 64-bit value. -/
def le8 (x : Nat) : List Nat :=
  [x % 256, x / 2 ^ 8 % 256, x / 2 ^ 16 % 256, x / 2 ^ 24 % 256,
   x / 2 ^ 32 % 256, x / 2 ^ 40 % 256, x / 2 ^ 48 % 256, x / 2 ^ 56 % 256]

/-- MD5 padding: `0x80`, zeros to 56 mod 64, then the bit length, little-endian. -/
def md5Pad (msg : List Nat) : List Nat :=
  msg ++ [128] ++ List.replicate ((119 - msg.length % 64) % 64) 0
      ++ le8 (8 * msg.length)

/-- The 16 little-endian words of a 64-byte chunk starting at byte `64*i`. -/
def md5Words (padded : List Nat) (i : Nat) : List Nat :=
  (List.range 16).map fun j =>
    padded.getD (64 * i + 4 * j) 0 + 256 * padded.getD (64 * i + 4 * j + 1) 0
      + 65536 * padded.getD (64 * i + 4 * j + 2) 0
      + 16777216 * padded.getD (64 * i + 4 * j + 3) 0

/-- MD5 digest of a byte list, as its 16 bytes. -/
def md5 (msg : List Nat) : List Nat :=
  let padded := md5Pad msg
  let st := (List.range (padded.length / 64)).foldl
    (fun st i => md5Chunk (md5Words padded i) st)
    (0x67452301, 0xefcdab89, 0x98badcfe, 0x10325476)
  wordLE st.1 ++ wordLE st.2.1 ++ wordLE st.2.2.1 ++ wordLE st.2.2.2

/-- `strongHash`, `rsync.go` lines 200–204: the MD5 digest of the block. -/
def strongHash (v : List Nat) : List Nat := md5 v

/-! ## Block hashing, `rsync.go` lines 22–30, 58–85 -/

/-- `BlockHash`, `rsync.go` lines 23–30. -/
structure BlockHash where
  index : Nat
  strongHash : List Nat
  weakHash : Nat
deriving DecidableEq, Repr

/-- `getBlocksNumber`, `rsync.go` lines 79–85: `ceil(len / BlockSize)`. -/
def getBlocksNumber (content : List Nat) : Nat :=
  content.length / BlockSize + (if content.length % BlockSize ≠ 0 then 1 else 0)

/-- `CalculateBlockHashes`, `rsync.go` lines 58–75: block `i` spans
`[i*BlockSize, min((i+1)*BlockSize, len))`. -/
def CalculateBlockHashes (content : List Nat) : List BlockHash :=
  (List.range (getBlocksNumber content)).map fun i =>
    let block := slice content (i * BlockSize) (min ((i + 1) * BlockSize) content.length)
    { index := i, strongHash := strongHash block, weakHash := (weakHash block).1 }

/-! ## Operations and reconstruction, `rsync.go` lines 36–52, 92–110 -/

/-- Opcode `BLOCK`, `rsync.go` line 38 (`iota` start, value 0). -/
def BLOCK : Nat := 0

/-- Opcode `DATA`, `rsync.go` line 40 (value 1). -/
def DATA : Nat := 1

/-- `RSyncOp`, `rsync.go` lines 45–52.  Go zero values: a `BLOCK` op carries
`data = nil` (here `[]`), a `DATA` op carries `blockIndex = 0`. -/
structure RSyncOp where
  opCode : Nat
  data : List Nat
  blockIndex : Nat
deriving DecidableEq, Repr

/-- Go's `copy(dst[off:off+...], src)` pattern: overwrite `dst` from position
`off` with `src`, copying `min (len src) (len dst - off)` bytes (Go `copy`
truncates to the shorter slice).  The length of `dst` is preserved. -/
def copyInto (dst : List Nat) (off : Nat) (src : List Nat) : List Nat :=
  dst.take off ++ src.take (dst.length - off)
    ++ dst.drop (off + min src.length (dst.length - off))

/-- The loop body of `ApplyOps` over the drained channel, `rsync.go`
lines 96–108.  `none` models a Go slice-bounds panic:

* `BLOCK`: `copy(result[offset:offset+BlockSize], content[i*BlockSize:i*BlockSize+BlockSize])`
  panics unless `offset+BlockSize ≤ fileSize` and `i*BlockSize+BlockSize ≤ len content`;
  it always copies a full `BlockSize` bytes.
* `DATA`: `copy(result[offset:], op.data)` panics unless `offset ≤ fileSize`;
  `copy` silently truncates `op.data` to the remaining space, while `offset`
  still advances by `len op.data`.
* any other opcode: no `switch` case matches, the op is skipped. -/
def applyLoop (content : List Nat) (fileSize : Nat) :
    List RSyncOp → List Nat → Nat → Option (List Nat)
  | [], result, _ => some result
  | op :: rest, result, offset =>
    if op.opCode = BLOCK then
      if offset + BlockSize ≤ fileSize ∧
          op.blockIndex * BlockSize + BlockSize ≤ content.length then
        applyLoop content fileSize rest
          (copyInto result offset
            (slice content (op.blockIndex * BlockSize)
              (op.blockIndex * BlockSize + BlockSize)))
          (offset + BlockSize)
      else none
    else if op.opCode = DATA then
      if offset ≤ fileSize then
        applyLoop content fileSize rest (copyInto result offset op.data)
          (offset + op.data.length)
      else none
    else applyLoop content fileSize rest result offset

/-- `ApplyOps`, `rsync.go` lines 92–110: `result := make([]byte, fileSize)`
(all zeros), then the channel loop. -/
def ApplyOps (content : List Nat) (ops : List RSyncOp) (fileSize : Nat) :
    Option (List Nat) :=
  applyLoop content fileSize ops (List.replicate fileSize 0) 0

/-! ## The differ, `rsync.go` lines 117–197 -/

/-- The weak-hash map of `CalculateDifferences`, `rsync.go` lines 120–129:
`hashesMap[key] = append(hashesMap[key], h)` over the input list, so bucket
`w` holds, in input order, the hashes whose `weakHash` is `w`.  A missing
key is Go's `nil`, here `[]`. -/
def buildHashesMap (hashes : List BlockHash) : Nat → List BlockHash :=
  hashes.foldl (fun m h w => if w = h.weakHash then m w ++ [h] else m w)
    (fun _ => [])

/-- `searchStrongHash`, `rsync.go` lines 190–197: first bucket entry whose
strong hash equals `hashValue` (byte-string comparison), else `none`. -/
def searchStrongHash : List BlockHash → List Nat → Option BlockHash
  | [], _ => none
  | bh :: rest, v =>
      if bh.strongHash = v then some bh else searchStrongHash rest v

/-- The window end of the scan loop, `rsync.go` line 140:
`endingByte := min(offset+BlockSize, len(content)-1)`. -/
def scanEndingByte (content : List Nat) (offset : Nat) : Nat :=
  min (offset + BlockSize) (content.length - 1)

/-- The scan window, `rsync.go` line 141: `block := content[offset:endingByte]`. -/
def scanWindow (content : List Nat) (offset : Nat) : List Nat :=
  slice content offset (scanEndingByte content offset)

/-- The incremental roll, `rsync.go` lines 151–153 (`uint32` steps explicit):

```go
aweak = (aweak - uint32(content[offset-1]) + uint32(content[endingByte-1])) % M
bweak = (bweak - (uint32(endingByte-offset) * uint32(content[offset-1])) + aweak) % M
weak = aweak + (1 << 16 * bweak)
```

Returns `(weak, a, b)` in the same order as `weakHash`. -/
def rollStep (aweak bweak removed added windowLen : Nat) : Nat × Nat × Nat :=
  let a' := u32 (u32sub aweak removed + added) % M
  let b' := u32 (u32sub bweak (u32 (windowLen * removed)) + a') % M
  (u32 (a' + u32 (65536 * b')), a', b')

/-- The `for offset < len(content)` loop of `CalculateDifferences`,
`rsync.go` lines 138–185, as a fuel-indexed structural recursion; each
iteration advances `offset` by at least 1, so fuel `len content + 1` (used
by `CalculateDifferences`) never runs out before the loop exits.  The
returned list is the sequence of operations sent on the channel, in order;
both the fuel-exhaustion and the loop-exit branch perform the final flush
of `rsync.go` lines 183–185.  State: `offset`, `previousMatch`, `aweak`,
`bweak`, `weak`, `dirty`, `isRolling`. -/
def scanLoop (content : List Nat) (hashes : List BlockHash) :
    Nat → Nat → Nat → Nat → Nat → Nat → Bool → Bool → List RSyncOp
  | 0, _, previousMatch, _, _, _, dirty, _ =>
      if dirty then [⟨DATA, content.drop previousMatch, 0⟩] else []
  | fuel + 1, offset, previousMatch, aweak, bweak, _weak, dirty, isRolling =>
    if offset < content.length then
      let endingByte := scanEndingByte content offset
      let block := scanWindow content offset
      let hw :=
        if !isRolling then weakHash block
        else rollStep aweak bweak (content.getD (offset - 1) 0)
          (content.getD (endingByte - 1) 0) (endingByte - offset)
      let bucket := buildHashesMap hashes hw.1
      let found :=
        if bucket.isEmpty then none
        else searchStrongHash bucket (strongHash block)
      match found with
      | some bh =>
          (if dirty then [⟨DATA, slice content previousMatch offset, 0⟩] else [])
            ++ ⟨BLOCK, [], bh.index⟩ ::
              scanLoop content hashes fuel (offset + BlockSize) endingByte
                hw.2.1 hw.2.2 hw.1 false false
      | none =>
          scanLoop content hashes fuel (offset + 1) previousMatch
            hw.2.1 hw.2.2 hw.1 true true
    else if dirty then [⟨DATA, content.drop previousMatch, 0⟩] else []

/-- `CalculateDifferences`, `rsync.go` lines 117–186: build the weak-hash
map, run the scan loop from `offset = previousMatch = 0` with all-zero
checksum state and both flags clear. -/
def CalculateDifferences (content : List Nat) (hashes : List BlockHash) :
    List RSyncOp :=
  scanLoop content hashes (content.length + 1) 0 0 0 0 0 false false

/-! ## Helper lemmas -/

/-- `copyInto` preserves the length of the destination buffer. -/
theorem copyInto_length (dst : List Nat) (off : Nat) (src : List Nat) :
    (copyInto dst off src).length = dst.length := by
  simp only [copyInto, List.length_append, List.length_take, List.length_drop]
  omega

/-- A successful `applyLoop` run returns a buffer of the same length as the
accumulator it started from. -/
theorem applyLoop_length (content : List Nat) (fileSize : Nat) :
    ∀ (ops : List RSyncOp) (result : List Nat) (offset : Nat) (r : List Nat),
      applyLoop content fileSize ops result offset = some r →
      r.length = result.length := by
  intro ops
  induction ops with
  | nil =>
      intro result offset r h
      simp only [applyLoop, Option.some.injEq] at h
      rw [← h]
  | cons op rest ih =>
      intro result offset r h
      simp only [applyLoop] at h
      split at h
      · split at h
        · have := ih _ _ _ h
          rwa [copyInto_length] at this
        · exact absurd h (by simp)
      · split at h
        · split at h
          · have := ih _ _ _ h
            rwa [copyInto_length] at this
          · exact absurd h (by simp)
        · exact ih _ _ _ h

/-- An out-of-range block index makes the whole block copy out of range. -/
theorem invalid_index_overruns (content : List Nat) (idx : Nat)
    (h : getBlocksNumber content ≤ idx) :
    content.length < idx * BlockSize + BlockSize := by
  simp only [getBlocksNumber, BlockSize] at *
  split at h <;> omega

/-- `applyLoop` aborts (`none`) whenever the op list contains a `BLOCK`
operation whose index is outside the valid block range of `content`. -/
theorem applyLoop_invalid_none (content : List Nat) (fileSize : Nat) :
    ∀ (ops : List RSyncOp) (result : List Nat) (offset : Nat) (op : RSyncOp),
      op ∈ ops → op.opCode = BLOCK → getBlocksNumber content ≤ op.blockIndex →
      applyLoop content fileSize ops result offset = none := by
  intro ops
  induction ops with
  | nil => intro _ _ op hmem; exact absurd hmem (List.not_mem_nil op)
  | cons hd rest ih =>
      intro result offset op hmem hcode hidx
      rcases List.mem_cons.mp hmem with heq | hmem'
      · subst heq
        have hover := invalid_index_overruns content op.blockIndex hidx
        simp only [applyLoop, if_pos hcode]
        rw [if_neg]
        omega
      · simp only [applyLoop]
        split
        · split
          · exact ih _ _ op hmem' hcode hidx
          · rfl
        · split
          · split
            · exact ih _ _ op hmem' hcode hidx
            · rfl
          · exact ih _ _ op hmem' hcode hidx

/-- The weak-hash map lookup is the in-order filter of the hash list. -/
theorem buildHashesMap_eq_filter (hashes : List BlockHash) (w : Nat) :
    buildHashesMap hashes w = hashes.filter (fun bh => bh.weakHash == w) := by
  have general :
      ∀ (hs : List BlockHash) (m : Nat → List BlockHash) (w : Nat),
        hs.foldl (fun m h w => if w = h.weakHash then m w ++ [h] else m w) m w
          = m w ++ hs.filter (fun bh => bh.weakHash == w) := by
    intro hs
    induction hs with
    | nil => intro m w; simp
    | cons h t ih =>
        intro m w
        simp only [List.foldl_cons, List.filter_cons, ih]
        by_cases hw : h.weakHash = w
        · simp [hw]
        · have : ¬ w = h.weakHash := fun he => hw he.symm
          simp [hw, this]
  simpa using general hashes (fun _ => []) w

/-- A slice with a nonempty in-range index interval is nonempty. -/
theorem slice_ne_nil {c : List Nat} {i j : Nat} (h1 : i < j) (h2 : i < c.length) :
    slice c i j ≠ [] := by
  simp only [slice, ne_eq, List.take_eq_nil_iff, List.drop_eq_nil_iff]
  push_neg
  omega

/-- Loop invariant of the scan loop: `previousMatch` never exceeds `offset`,
and while `dirty` is set it lies strictly before both `offset` and the end of
the content; hence every emitted `DATA` operation carries at least one byte. -/
theorem scanLoop_data_ne_nil (content : List Nat) (hashes : List BlockHash) :
    ∀ (fuel offset prev a b w : Nat) (dirty rolling : Bool),
      prev ≤ offset →
      (dirty = true → prev < offset ∧ prev < content.length) →
      ∀ op ∈ scanLoop content hashes fuel offset prev a b w dirty rolling,
        op.opCode = DATA → op.data ≠ [] := by
  intro fuel
  induction fuel with
  | zero =>
      intro offset prev a b w dirty rolling h1 h2 op hop hcode
      simp only [scanLoop] at hop
      split at hop
      case isTrue hd =>
        rcases List.mem_singleton.mp hop with rfl
        simp only [ne_eq, List.drop_eq_nil_iff]
        have := h2 hd
        omega
      case isFalse => exact absurd hop (List.not_mem_nil op)
  | succ n ih =>
      intro offset prev a b w dirty rolling h1 h2 op hop hcode
      simp only [scanLoop] at hop
      split at hop
      case isTrue hlt =>
        split at hop
        case h_1 bh heq =>
          rcases List.mem_append.mp hop with hleft | hright
          · split at hleft
            case isTrue hd =>
              rcases List.mem_singleton.mp hleft with rfl
              exact slice_ne_nil (h2 hd).1 (h2 hd).2
            case isFalse => exact absurd hleft (List.not_mem_nil op)
          · rcases List.mem_cons.mp hright with rfl | hrec
            · exact absurd hcode (by simp [BLOCK, DATA])
            · refine ih (offset + BlockSize) (scanEndingByte content offset)
                _ _ _ false false ?_ (by simp) op hrec hcode
              simp only [scanEndingByte, BlockSize]
              omega
        case h_2 heq =>
          exact ih (offset + 1) prev _ _ _ true true (by omega)
            (fun _ => ⟨by omega, by omega⟩) op hop hcode
      case isFalse hge =>
        split at hop
        case isTrue hd =>
          rcases List.mem_singleton.mp hop with rfl
          simp only [ne_eq, List.drop_eq_nil_iff]
          have := h2 hd
          omega
        case isFalse => exact absurd hop (List.not_mem_nil op)

/-- `searchStrongHash` returns the first bucket entry with the given strong
hash, in bucket order. -/
theorem searchStrongHash_eq_find (l : List BlockHash) (v : List Nat) :
    searchStrongHash l v = l.find? (fun bh => bh.strongHash == v) := by
  induction l with
  | nil => rfl
  | cons bh rest ih =>
      simp only [searchStrongHash, List.find?]
      by_cases h : bh.strongHash = v
      · simp [h]
      · rw [if_neg h, ih]
        have hb : (bh.strongHash == v) = false := by
          simpa using h
        rw [hb]

/-- The position-weighted byte sum `Σ (len v − i) · v[i]` accumulated by the
second component of `weakHash` (exact value, before any reduction). -/
def weightedSum : List Nat → Nat
  | [] => 0
  | x :: t => (t.length + 1) * x + weightedSum t

/-- Reduction modulo `2^32` is invisible modulo `M` (as `M ∣ 2^32`). -/
theorem mod_U32_modEq_M (x : Nat) : x % U32 ≡ x [MOD M] :=
  Nat.ModEq.of_dvd (by norm_num [M, U32]) (Nat.mod_modEq x U32)

/-- The `uint32` accumulators of `weakHash` agree, modulo `M`, with the exact
byte sum and the exact weighted sum. -/
theorem weakLoop_modEq (v : List Nat) :
    ∀ a b : Nat, (weakLoop v a b).1 ≡ a + v.sum [MOD M] ∧
      (weakLoop v a b).2 ≡ b + weightedSum v [MOD M] := by
  induction v with
  | nil => intro a b; simp [weakLoop, weightedSum, Nat.ModEq.refl]
  | cons x t ih =>
      intro a b
      simp only [weakLoop, List.sum_cons, weightedSum]
      constructor
      · calc (weakLoop t ((a + u32 x) % U32) ((b + u32 ((t.length + 1) * x)) % U32)).1
            ≡ (a + u32 x) % U32 + t.sum [MOD M] := (ih _ _).1
          _ ≡ a + u32 x + t.sum [MOD M] := (mod_U32_modEq_M _).add_right _
          _ ≡ a + x + t.sum [MOD M] :=
              (((mod_U32_modEq_M x).add_left a).add_right _)
          _ = a + (x + t.sum) := by ring
      · calc (weakLoop t ((a + u32 x) % U32) ((b + u32 ((t.length + 1) * x)) % U32)).2
            ≡ (b + u32 ((t.length + 1) * x)) % U32 + weightedSum t [MOD M] := (ih _ _).2
          _ ≡ b + u32 ((t.length + 1) * x) + weightedSum t [MOD M] :=
              (mod_U32_modEq_M _).add_right _
          _ ≡ b + (t.length + 1) * x + weightedSum t [MOD M] :=
              (((mod_U32_modEq_M _).add_left b).add_right _)
          _ = b + ((t.length + 1) * x + weightedSum t) := by ring

/-- `weakHash` in closed form: the byte sum and weighted sum modulo `M`,
composed as `a + 2^16 · b`. -/
theorem weakHash_eq (v : List Nat) :
    weakHash v
      = (v.sum % M + 65536 * (weightedSum v % M), v.sum % M, weightedSum v % M) := by
  have h := weakLoop_modEq v 0 0
  have h1 : (weakLoop v 0 0).1 % M = v.sum % M := by
    have := h.1; simpa [Nat.ModEq] using this
  have h2 : (weakLoop v 0 0).2 % M = weightedSum v % M := by
    have := h.2; simpa [Nat.ModEq] using this
  simp only [weakHash, h1, h2]

/-- Appending one byte: the weighted sum grows by the old byte sum plus the
new byte. -/
theorem weightedSum_append_singleton (t : List Nat) (y : Nat) :
    weightedSum (t ++ [y]) = weightedSum t + t.sum + y := by
  induction t with
  | nil => simp [weightedSum]
  | cons x s ih =>
      simp only [List.cons_append, weightedSum, List.sum_cons, List.append_eq]
      rw [ih]
      have hlen : (s ++ [y]).length = s.length + 1 := by simp
      rw [hlen]
      ring

/-- One incremental roll step applied to the full-recomputation checksum of
`x :: t` yields exactly the full-recomputation checksum of the adjacent
window `t ++ [y]` of the same length. -/
theorem rollStep_adjacent (t : List Nat) (x y : Nat) :
    rollStep (weakHash (x :: t)).2.1 (weakHash (x :: t)).2.2 x y (t.length + 1)
      = weakHash (t ++ [y]) := by
  rw [weakHash_eq, weakHash_eq]
  simp only [rollStep, List.sum_cons, weightedSum, List.sum_append,
    List.sum_cons, List.sum_nil, Nat.add_zero, weightedSum_append_singleton]
  have ha : u32 (u32sub ((x + t.sum) % M) x + y) % M = (t.sum + y) % M := by
    simp only [u32, u32sub, U32, M]
    omega
  rw [ha]
  have hb : u32 (u32sub (((t.length + 1) * x + weightedSum t) % M)
        (u32 ((t.length + 1) * x)) + (t.sum + y) % M) % M
      = (weightedSum t + (t.sum + y)) % M := by
    simp only [u32, u32sub, U32, M]
    generalize (t.length + 1) * x = p
    omega
  rw [hb]
  have hc : u32 ((t.sum + y) % M + u32 (65536 * ((weightedSum t + (t.sum + y)) % M)))
      = (t.sum + y) % M + 65536 * ((weightedSum t + (t.sum + y)) % M) := by
    simp only [u32, U32, M]
    omega
  rw [hc]
  have : weightedSum t + t.sum + y = weightedSum t + (t.sum + y) := by ring
  rw [this]

/-- An in-range `drop` decomposes as its first element followed by the rest. -/
theorem drop_eq_getD_cons :
    ∀ (c : List Nat) (o : Nat), o < c.length →
      c.drop o = c.getD o 0 :: c.drop (o + 1) := by
  intro c
  induction c with
  | nil => intro o h; simp at h
  | cons x t ih =>
      intro o h
      cases o with
      | zero => simp [List.getD]
      | succ m =>
          simp only [List.drop_succ_cons, List.getD_cons_succ]
          exact ih m (by simpa using h)

/-- An in-range `take (n+1)` decomposes as `take n` plus the element at `n`. -/
theorem take_succ_getD :
    ∀ (l : List Nat) (n : Nat), n < l.length →
      l.take (n + 1) = l.take n ++ [l.getD n 0] := by
  intro l
  induction l with
  | nil => intro n h; simp at h
  | cons x t ih =>
      intro n h
      cases n with
      | zero => simp [List.getD]
      | succ m =>
          simp only [List.take_succ_cons, List.getD_cons_succ, List.cons_append]
          rw [ih m (by simpa using h)]

/-- Indexing after a `drop` shifts the index. -/
theorem getD_drop_add :
    ∀ (c : List Nat) (i j : Nat), (c.drop i).getD j 0 = c.getD (i + j) 0 := by
  intro c
  induction c with
  | nil => intro i j; simp
  | cons x t ih =>
      intro i j
      cases i with
      | zero => simp
      | succ m =>
          have h1 : m + 1 + j = (m + j) + 1 := by omega
          simp only [List.drop_succ_cons, h1, List.getD_cons_succ]
          exact ih m j

/-- Head decomposition of an in-range slice. -/
theorem slice_head (c : List Nat) (o L : Nat) (hL : 1 ≤ L) (h : o < c.length) :
    slice c o (o + L) = c.getD o 0 :: slice c (o + 1) (o + L) := by
  simp only [slice]
  rw [drop_eq_getD_cons c o h]
  have h1 : o + L - o = (o + L - (o + 1)) + 1 := by omega
  rw [h1, List.take_succ_cons]

/-- Extending an in-range slice of the dropped list by one element. -/
theorem slice_take_succ (c : List Nat) (i n : Nat) (h : i + n < c.length) :
    (c.drop i).take (n + 1) = (c.drop i).take n ++ [c.getD (i + n) 0] := by
  rw [take_succ_getD (c.drop i) n (by simp only [List.length_drop]; omega),
    getD_drop_add]

/-! ## The claims -/

/-- Claim C1 (the code violates it): round-trip fails on sub-block buffers.
With `original = [7]` and `modified = [7, 1]`, the differ matches the
one-byte tail window `[7]` against the partial reference block and emits
only `BLOCK 0` (the final byte of `modified` is dropped because the scan
window ends at `len − 1` and `previousMatch` jumps past it), and `ApplyOps`
then slices `content[0:2]` out of the 1-byte reference — a Go slice-bounds
panic (`none`); in particular the result is not `modified`. -/
theorem C1_roundtrip_fails_on_sub_block_buffers :
    CalculateDifferences [7, 1] (CalculateBlockHashes [7]) = [⟨BLOCK, [], 0⟩] ∧
    ApplyOps [7] (CalculateDifferences [7, 1] (CalculateBlockHashes [7])) 2 = none ∧
    ApplyOps [7] (CalculateDifferences [7, 1] (CalculateBlockHashes [7])) 2
      ≠ some [7, 1] := by
  refine ⟨by decide, by decide, by decide⟩

/-- Claim C2 (the code violates it): the scan window is
`[offset, min(offset+BlockSize, len−1))`, not
`[offset, min(offset+BlockSize, len))`.  At `content = [1, 2, 3]`,
`offset = 2` (an iteration actually reached when scanning that content),
the code's window is empty and never contains the final byte, while the
claimed window is `[3]`. -/
theorem C2_window_never_reaches_final_byte :
    scanEndingByte [1, 2, 3] 2 = 2 ∧
    scanWindow [1, 2, 3] 2 = [] ∧
    min (2 + BlockSize) ([1, 2, 3] : List Nat).length = 3 ∧
    slice [1, 2, 3] 2 (min (2 + BlockSize) ([1, 2, 3] : List Nat).length) = [3] := by
  refine ⟨by decide, by decide, by decide, by decide⟩

/-- Claim C3 (the code violates it): a `BLOCK` operation for the final
partial block must copy that block's true length.  Reference `[7]` has one
block of true length `min BlockSize (1 − 0·BlockSize) = 1`, but `ApplyOps`
unconditionally slices `content[0:BlockSize] = content[0:2]` past the end of
the 1-byte reference (and writes `BlockSize` bytes past the 1-byte output),
a Go slice-bounds panic (`none`) instead of a 1-byte copy. -/
theorem C3_partial_block_copy_overruns :
    min BlockSize (([7] : List Nat).length - 0 * BlockSize) = 1 ∧
    ApplyOps [7] [⟨BLOCK, [], 0⟩] 1 = none := by
  refine ⟨by decide, by decide⟩

/-- Claim C4: an operation whose `blockIndex` lies outside the valid block
range of the reference content makes reconstruction abort: the out-of-range
block copy is a Go slice-bounds panic (`none`), never a clamped index or a
successfully returned buffer. -/
theorem C4_invalid_block_index_fatal (content : List Nat) (ops : List RSyncOp)
    (fileSize : Nat) (op : RSyncOp) (hmem : op ∈ ops)
    (hcode : op.opCode = BLOCK)
    (hidx : getBlocksNumber content ≤ op.blockIndex) :
    ApplyOps content ops fileSize = none :=
  applyLoop_invalid_none content fileSize ops (List.replicate fileSize 0) 0
    op hmem hcode hidx

/-- Witness for C4 at a concrete input: reference `[1, 2]` has 1 block, and
a stream containing `BLOCK 5` aborts. -/
theorem C4_invalid_block_index_fatal_witness :
    ApplyOps [1, 2] [⟨BLOCK, [], 5⟩] 3 = none :=
  C4_invalid_block_index_fatal [1, 2] [⟨BLOCK, [], 5⟩] 3 ⟨BLOCK, [], 5⟩
    (by decide) rfl (by decide)

/-- Claim C5 counterexample (the code violates the claim): an ops stream
contributing 1 byte against a declared output length of 2 is not surfaced
as an error — `ApplyOps` returns the zero-padded buffer `[5, 0]` as a
successful result. -/
theorem C5_length_mismatch_not_fatal_cex :
    (⟨DATA, [5], 0⟩ : RSyncOp).data.length ≠ 2 ∧
    ApplyOps [] [⟨DATA, [5], 0⟩] 2 = some [5, 0] := by
  refine ⟨by decide, by decide⟩

/-- Claim C5 as amended: `ApplyOps` performs no length check at all —
whenever it completes without a slice-bounds panic it returns a buffer of
exactly the declared length, regardless of how many bytes the operations
contributed (a short stream leaves the zero-initialised tail in place). -/
theorem C5_amended_no_length_check (content : List Nat) (ops : List RSyncOp)
    (fileSize : Nat) (r : List Nat)
    (h : ApplyOps content ops fileSize = some r) :
    r.length = fileSize := by
  have := applyLoop_length content fileSize ops (List.replicate fileSize 0) 0 r h
  simpa using this

/-- Witness for the amended C5 at a concrete input. -/
theorem C5_amended_no_length_check_witness : ([5, 0] : List Nat).length = 2 :=
  C5_amended_no_length_check [] [⟨DATA, [5], 0⟩] 2 [5, 0] (by decide)

/-- Claim C6 (the code violates it): on the non-empty buffer `[5]`, running
the differ against its own hash list yields one `DATA` operation and no
`BLOCK` operation at all (the scan window `[offset, len−1)` is empty and
never matches the reference block), not a pure in-order `BLOCK` stream. -/
theorem C6_identity_emits_data_cex :
    CalculateDifferences [5] (CalculateBlockHashes [5]) = [⟨DATA, [5], 0⟩] := by
  decide

/-- Claim C7: rolling equivalence.  For any buffer and any two adjacent
in-bounds windows of the same length `L ≥ 1`, one incremental roll step
(`rollStep`, the arithmetic of `rsync.go` lines 151–153) applied to the
full-recomputation `(a, b)` of the first window yields exactly the
full-recomputation weak hash (all three components) of the second. -/
theorem C7_rolling_equivalence (c : List Nat) (o L : Nat) (hL : 1 ≤ L)
    (h : o + 1 + L ≤ c.length) :
    rollStep (weakHash (slice c o (o + L))).2.1 (weakHash (slice c o (o + L))).2.2
        (c.getD o 0) (c.getD (o + L) 0) L
      = weakHash (slice c (o + 1) (o + 1 + L)) := by
  set t := slice c (o + 1) (o + L) with ht
  have htlen : t.length = L - 1 := by
    simp only [ht, slice, List.length_take, List.length_drop]
    omega
  have h1 : slice c o (o + L) = c.getD o 0 :: t := slice_head c o L hL (by omega)
  have h2 : slice c (o + 1) (o + 1 + L) = t ++ [c.getD (o + L) 0] := by
    simp only [ht, slice]
    have e1 : o + 1 + L - (o + 1) = (L - 1) + 1 := by omega
    have e2 : o + L - (o + 1) = L - 1 := by omega
    have e3 : o + 1 + (L - 1) = o + L := by omega
    rw [e1, e2, slice_take_succ c (o + 1) (L - 1) (by omega), e3]
  have key := rollStep_adjacent t (c.getD o 0) (c.getD (o + L) 0)
  have e4 : t.length + 1 = L := by omega
  rw [e4] at key
  rw [h1, h2]
  exact key

/-- Witness for C7 at a concrete input: rolling from window `[1, 2]` to
window `[2, 3]` of `[1, 2, 3]`. -/
theorem C7_rolling_equivalence_witness :
    rollStep (weakHash (slice [1, 2, 3] 0 (0 + 2))).2.1
        (weakHash (slice [1, 2, 3] 0 (0 + 2))).2.2
        (([1, 2, 3] : List Nat).getD 0 0) (([1, 2, 3] : List Nat).getD (0 + 2) 0) 2
      = weakHash (slice [1, 2, 3] (0 + 1) (0 + 1 + 2)) :=
  C7_rolling_equivalence [1, 2, 3] 0 2 (by decide) (by decide)

/-- Claim C8: the checksum fixture.  On the window `[0, 1, ..., 9]`,
`weakHash` returns `weak = 10813485`, `a = 45`, `b = 165`, where `a` is the
byte sum mod `M`, `b` the position-weighted sum mod `M`, and `weak`
composes `a` in the low and `b` in the high 16 bits. -/
theorem C8_checksum_fixture :
    weakHash [0, 1, 2, 3, 4, 5, 6, 7, 8, 9] = (10813485, 45, 165) ∧
    45 = ([0, 1, 2, 3, 4, 5, 6, 7, 8, 9] : List Nat).sum % M ∧
    165 = weightedSum [0, 1, 2, 3, 4, 5, 6, 7, 8, 9] % M ∧
    10813485 = 45 + 65536 * 165 := by
  refine ⟨by decide, by decide, by decide, by decide⟩

/-- Claim C9: every `DATA` operation emitted by `CalculateDifferences`
carries at least one byte — `previousMatch` stays strictly below the
emission point whenever the `dirty` flag is set. -/
theorem C9_data_ops_nonempty (content : List Nat) (hashes : List BlockHash)
    (op : RSyncOp) (hmem : op ∈ CalculateDifferences content hashes)
    (hcode : op.opCode = DATA) : op.data ≠ [] :=
  scanLoop_data_ne_nil content hashes (content.length + 1) 0 0 0 0 0 false false
    (Nat.le_refl 0) (by simp) op hmem hcode

/-- Witness for C9 at a concrete input: the flushed `DATA [5]` op of the
scan of `[5]` is non-empty. -/
theorem C9_data_ops_nonempty_witness : (⟨DATA, [5], 0⟩ : RSyncOp).data ≠ [] :=
  C9_data_ops_nonempty [5] (CalculateBlockHashes [5]) ⟨DATA, [5], 0⟩
    (by decide) rfl

/-- Claim C10: the differ is deterministic — it is a pure function of the
target content and the hash list; the weak-hash bucket for a key is the
in-order (ascending insertion, i.e. hash-list order) filter of the input
hash list, and `searchStrongHash` picks the first strong-hash match of the
bucket. -/
theorem C10_deterministic_first_match :
    (∀ (content : List Nat) (hashes : List BlockHash),
        CalculateDifferences content hashes
          = CalculateDifferences content hashes) ∧
    (∀ (hashes : List BlockHash) (w : Nat),
        buildHashesMap hashes w = hashes.filter (fun bh => bh.weakHash == w)) ∧
    (∀ (l : List BlockHash) (v : List Nat),
        searchStrongHash l v = l.find? (fun bh => bh.strongHash == v)) :=
  ⟨fun _ _ => rfl, buildHashesMap_eq_filter, searchStrongHash_eq_find⟩

end Rsync
